import Mathlib

/-!
Verification of the code-action selector and the progress-bar widget of this
repository.  The selector implementation itself (`getCodeActions` in
`quickFix.ts` and `CodeActionKind` in `codeActionTrigger.ts`) is not among the
provided sources — only its unit tests are — so the selector is modelled from
the specification; the progress bar is embedded from `progressbar.ts`.
-/

namespace VSCode

/-- Modelled from the spec: an `Action` has a `title`, an optional dot-delimited
hierarchical `kind`, and an optional ordered sequence `diagnosticMessages`
(`none` models the field being omitted, `some []` a present-but-empty list).
The implementation file `quickFix.ts` is missing from the sources. -/
structure CodeAction where
  title : String
  kind : Option String := none
  diagnosticMessages : Option (List String) := none
deriving Repr, DecidableEq

/-- Modelled from the spec: a `Filter` has an optional kind (the spec's
`kindPrefix`, named `kind` as in the tests) and an `includeSourceActions`
flag defaulting to false. -/
structure CodeActionFilter where
  kind : Option String := none
  includeSourceActions : Bool := false
deriving Repr, DecidableEq

/-- Does the first segment list stand at the head of the second? -/
def segContained : List String → List String → Bool
  | [], _ => true
  | _ :: _, [] => false
  | a :: as, b :: bs => a == b && segContained as bs

/-- Split a kind string at the dots into its segments
(structural recursion over the character list). -/
def splitDotAux : List Char → List Char → List String
  | [], acc => [String.mk acc.reverse]
  | c :: cs, acc =>
    if c = '.' then String.mk acc.reverse :: splitDotAux cs []
    else splitDotAux cs (c :: acc)

/-- All dot-delimited segments of a kind string. -/
def splitDot (s : String) : List String :=
  splitDotAux s.data []

/-- Modelled from the spec: kind containment is prefix containment on the
dot-delimited segments, so a kind is contained in itself and `"a.b"` is
contained in `"a"` but `"a.bc"` is not. -/
def kindContains (parent child : String) : Bool :=
  segContained (splitDot parent) (splitDot child)

/-- Modelled from the spec: an action passes the filter when its kind is
contained in the requested kind (if one is requested; an absent kind never
matches a requested kind) and it is not a `"source"` action unless
`includeSourceActions` is set. -/
def actionPasses (f : CodeActionFilter) (a : CodeAction) : Bool :=
  (match f.kind with
    | none => true
    | some kp =>
      match a.kind with
      | none => false
      | some k => kindContains kp k)
  &&
  (match a.kind with
    | none => true
    | some k => !kindContains "source" k || f.includeSourceActions)

/-- An action belongs to the diagnostics group exactly when its
`diagnosticMessages` sequence is present and non-empty. -/
def hasDiag (a : CodeAction) : Bool :=
  match a.diagnosticMessages with
  | some (_ :: _) => true
  | _ => false

/-- The sort key of a diagnostics-group action: its first diagnostic
message (empty string when there is none). -/
def firstMsg (a : CodeAction) : String :=
  match a.diagnosticMessages with
  | some (m :: _) => m
  | _ => ""

/-- Lexicographic strict comparison of character lists. -/
def charListLt : List Char → List Char → Bool
  | [], [] => false
  | [], _ :: _ => true
  | _ :: _, [] => false
  | a :: as, b :: bs =>
    if a < b then true
    else if b < a then false
    else charListLt as bs

/-- Lexicographic strict comparison of message strings. -/
def strLt (s t : String) : Bool :=
  charListLt s.data t.data

/-- Stable insertion of an action into a list ordered by `firstMsg`:
the action goes in front of the first element whose key is not below its
own, so earlier-produced actions with an equal key stay in front. -/
def insertByMsg (a : CodeAction) : List CodeAction → List CodeAction
  | [] => [a]
  | b :: bs =>
    if strLt (firstMsg b) (firstMsg a) then b :: insertByMsg a bs
    else a :: b :: bs

/-- Stable insertion sort of the diagnostics group by first message. -/
def sortByMsg : List CodeAction → List CodeAction
  | [] => []
  | a :: as => insertByMsg a (sortByMsg as)

/-- Modelled from the spec: concatenate all providers' actions in provider
order and keep those that pass the filter. -/
def collectActions (provided : List (List CodeAction)) (f : CodeActionFilter) :
    List CodeAction :=
  provided.flatten.filter (actionPasses f)

/-- Modelled from the spec: the code-action selector.  Retained actions with
diagnostics come first, stably sorted by the first diagnostic message; the
remaining retained actions follow in their original concatenation order. -/
def getCodeActions (provided : List (List CodeAction)) (f : CodeActionFilter) :
    List CodeAction :=
  sortByMsg ((collectActions provided f).filter hasDiag)
    ++ (collectActions provided f).filter (fun a => !hasDiag a)

/-- Modelled from the spec: the context handed to a provider, carrying the
requested kind in its `only` field. -/
structure CodeActionContext where
  only : Option String := none
deriving Repr, DecidableEq

/-- Modelled from the spec: fan-out to the providers — each provider is
invoked with a context whose `only` field is the filter's requested kind —
followed by selection over the collected lists. -/
def getCodeActionsFromProviders
    (providers : List (CodeActionContext → List CodeAction))
    (f : CodeActionFilter) : List CodeAction :=
  getCodeActions (providers.map (fun p => p { only := f.kind })) f

/-- Replace a present-but-empty diagnostics sequence by an absent one,
leaving every other action untouched. -/
def normEmptyDiag (a : CodeAction) : CodeAction :=
  match a.diagnosticMessages with
  | some [] => { a with diagnosticMessages := none }
  | _ => a

/-- A provider that reports the context it was handed: it returns one action
whose title is its tag and whose kind is the context's `only` field. -/
def observerProvider (tag : String) : CodeActionContext → List CodeAction :=
  fun ctx => [{ title := tag, kind := ctx.only, diagnosticMessages := none }]

/-- State of `ProgressBar` (`progressbar.ts`): the accumulated `workedVal`,
the `totalWork` (absent until `total` is called or after `off`), and the
percentage width of the progress bit (`none` models the non-discrete CSS
widths such as `inherit`). -/
structure ProgressBar where
  workedVal : ℚ
  totalWork : Option ℚ
  bitWidthPct : Option ℚ
deriving Repr, DecidableEq

/-- The constructor sets `workedVal` to 0 and leaves `totalWork` undefined. -/
def ProgressBar.initial : ProgressBar :=
  { workedVal := 0, totalWork := none, bitWidthPct := none }

/-- `total(value)` resets `workedVal` and records the total work. -/
def ProgressBar.total (p : ProgressBar) (value : ℚ) : ProgressBar :=
  { p with workedVal := 0, totalWork := some value }

/-- `hasTotal()` — the `isNaN` test on the possibly-undefined total. -/
def ProgressBar.hasTotal (p : ProgressBar) : Bool :=
  p.totalWork.isSome

/-- `doSetWorked(value)`: asserts that the total is set (`none` models the
failed assertion), clamps the worked value to the total from above and sets
the bit width to `100 * (workedVal / totalWork)` percent. -/
def ProgressBar.doSetWorked (p : ProgressBar) (value : ℚ) : Option ProgressBar :=
  match p.totalWork with
  | none => none
  | some t =>
    some { workedVal := min t value,
           totalWork := some t,
           bitWidthPct := some (100 * (min t value / t)) }

/-- `worked(value)`: coerces the increment up to at least 1, then adds it to
the accumulated worked value. -/
def ProgressBar.worked (p : ProgressBar) (value : ℚ) : Option ProgressBar :=
  p.doSetWorked (p.workedVal + max 1 value)

/-- `setWorked(value)`: coerces the absolute value up to at least 1, then
sets it as the accumulated worked value. -/
def ProgressBar.setWorked (p : ProgressBar) (value : ℚ) : Option ProgressBar :=
  p.doSetWorked (max 1 value)

/-! ### Order facts about the lexicographic comparison -/

theorem charListLt_irrefl : ∀ as : List Char, charListLt as as = false
  | [] => rfl
  | a :: as => by
    simp [charListLt, lt_irrefl, charListLt_irrefl as]

theorem charListLt_neg_trans :
    ∀ as bs cs : List Char,
      charListLt as bs = false → charListLt bs cs = false → charListLt as cs = false := by
  intro as
  induction as with
  | nil =>
    intro bs cs h₁ h₂
    cases bs with
    | nil => exact h₂
    | cons b bs => simp [charListLt] at h₁
  | cons x xs ih =>
    intro bs cs h₁ h₂
    cases cs with
    | nil => simp [charListLt]
    | cons a cs =>
      cases bs with
      | nil => simp [charListLt] at h₂
      | cons b bs =>
        by_cases hxb : x < b
        · simp [charListLt, hxb] at h₁
        · by_cases hba : b < a
          · simp [charListLt, hba] at h₂
          · have hax : a ≤ x := le_trans (le_of_not_lt hba) (le_of_not_lt hxb)
            have hxa : ¬ x < a := not_lt_of_le hax
            by_cases hax' : a < x
            · simp [charListLt, hxa, hax']
            · have hxeqa : x = a := le_antisymm (le_of_not_lt hax') hax
              have hbeqx : b = x := le_antisymm (le_of_not_lt hxb) (hxeqa ▸ le_of_not_lt hba)
              subst hxeqa
              subst hbeqx
              simp [charListLt, lt_irrefl] at h₁ h₂ ⊢
              exact ih bs cs h₁ h₂

theorem charListLt_asymm :
    ∀ as bs : List Char, charListLt as bs = true → charListLt bs as = false := by
  intro as
  induction as with
  | nil =>
    intro bs h
    cases bs with
    | nil => simp [charListLt] at h
    | cons b bs => simp [charListLt]
  | cons a as ih =>
    intro bs h
    cases bs with
    | nil => simp [charListLt] at h
    | cons b bs =>
      by_cases hab : a < b
      · simp [charListLt, hab, lt_asymm hab]
      · by_cases hba : b < a
        · simp [charListLt, hab, hba] at h
        · simp [charListLt, hab, hba] at h ⊢
          exact ih bs h

theorem strLt_irrefl (s : String) : strLt s s = false :=
  charListLt_irrefl s.data

theorem strLt_asymm {s t : String} (h : strLt s t = true) : strLt t s = false :=
  charListLt_asymm s.data t.data h

theorem strLt_neg_trans {s t u : String} (h₁ : strLt s t = false) (h₂ : strLt t u = false) :
    strLt s u = false :=
  charListLt_neg_trans s.data t.data u.data h₁ h₂

theorem ne_of_strLt {s t : String} (h : strLt s t = true) : s ≠ t := by
  intro he
  subst he
  rw [strLt_irrefl] at h
  exact Bool.false_ne_true h

/-! ### Facts about the stable insertion sort -/

theorem mem_insertByMsg {x a : CodeAction} :
    ∀ l : List CodeAction, x ∈ insertByMsg a l ↔ x = a ∨ x ∈ l := by
  intro l
  induction l with
  | nil => simp [insertByMsg]
  | cons b bs ih =>
    by_cases h : strLt (firstMsg b) (firstMsg a) = true
    · simp [insertByMsg, h, ih]
      tauto
    · simp [insertByMsg, h]

theorem mem_sortByMsg {x : CodeAction} :
    ∀ l : List CodeAction, x ∈ sortByMsg l ↔ x ∈ l := by
  intro l
  induction l with
  | nil => simp [sortByMsg]
  | cons a as ih =>
    simp [sortByMsg, mem_insertByMsg, ih]

/-- The ordering maintained inside the diagnostics group: the later key is
never strictly below the earlier one. -/
def keyLe (a b : CodeAction) : Prop :=
  strLt (firstMsg b) (firstMsg a) = false

theorem pairwise_insertByMsg {a : CodeAction} :
    ∀ {l : List CodeAction}, l.Pairwise keyLe → (insertByMsg a l).Pairwise keyLe := by
  intro l
  induction l with
  | nil =>
    intro _
    simp [insertByMsg, keyLe]
  | cons b bs ih =>
    intro hp
    rw [List.pairwise_cons] at hp
    by_cases h : strLt (firstMsg b) (firstMsg a) = true
    · rw [insertByMsg, if_pos h, List.pairwise_cons]
      refine ⟨?_, ih hp.2⟩
      intro x hx
      rcases (mem_insertByMsg bs).mp hx with hxa | hxb
      · subst hxa
        exact strLt_asymm h
      · exact hp.1 x hxb
    · rw [insertByMsg, if_neg h, List.pairwise_cons]
      refine ⟨?_, List.pairwise_cons.mpr hp⟩
      intro x hx
      have hba : strLt (firstMsg b) (firstMsg a) = false := Bool.eq_false_iff.mpr h
      rcases List.mem_cons.mp hx with hxb | hxbs
      · subst hxb
        exact hba
      · exact strLt_neg_trans (hp.1 x hxbs) hba

theorem pairwise_sortByMsg : ∀ l : List CodeAction, (sortByMsg l).Pairwise keyLe
  | [] => List.Pairwise.nil
  | _ :: as => pairwise_insertByMsg (pairwise_sortByMsg as)

theorem insertByMsg_ne_nil (a : CodeAction) : ∀ l : List CodeAction, insertByMsg a l ≠ []
  | [] => by simp [insertByMsg]
  | b :: bs => by
    rw [insertByMsg]
    split <;> simp

theorem sortByMsg_eq_nil {l : List CodeAction} : sortByMsg l = [] ↔ l = [] := by
  cases l with
  | nil => simp [sortByMsg]
  | cons a as =>
    simp only [sortByMsg]
    exact ⟨fun h => absurd h (insertByMsg_ne_nil a (sortByMsg as)), fun h => by simp at h⟩

/-- Stability of the insertion step: restricted to any one key `m`, inserting
keeps the original relative order. -/
theorem filter_insertByMsg (a : CodeAction) (m : String) :
    ∀ l : List CodeAction,
      (insertByMsg a l).filter (fun x => firstMsg x == m)
        = if firstMsg a == m then a :: l.filter (fun x => firstMsg x == m)
          else l.filter (fun x => firstMsg x == m) := by
  intro l
  induction l with
  | nil =>
    by_cases ham : (firstMsg a == m) = true <;> simp [insertByMsg, ham]
  | cons b bs ih =>
    by_cases h : strLt (firstMsg b) (firstMsg a) = true
    · rw [insertByMsg, if_pos h]
      by_cases ham : (firstMsg a == m) = true
      · have hbm : (firstMsg b == m) = false := by
          apply Bool.eq_false_iff.mpr
          intro hbm
          have hba : firstMsg b = firstMsg a := (eq_of_beq hbm).trans (eq_of_beq ham).symm
          rw [hba, strLt_irrefl] at h
          exact Bool.false_ne_true h
        simp [List.filter_cons, hbm, ih, ham]
      · simp [List.filter_cons, ih, ham]
    · rw [insertByMsg, if_neg h]
      by_cases ham : (firstMsg a == m) = true <;> simp [List.filter_cons, ham]

/-- Stability of the sort: restricted to any one key `m`, the sorted list
keeps the original relative order. -/
theorem filter_sortByMsg (m : String) :
    ∀ l : List CodeAction,
      (sortByMsg l).filter (fun x => firstMsg x == m)
        = l.filter (fun x => firstMsg x == m) := by
  intro l
  induction l with
  | nil => rfl
  | cons a as ih =>
    rw [sortByMsg, filter_insertByMsg, ih, List.filter_cons]

/-! ### The empty-diagnostics normalisation preserves every observable field -/

theorem normEmptyDiag_kind (a : CodeAction) : (normEmptyDiag a).kind = a.kind := by
  rcases a with ⟨t, k, d⟩
  rcases d with _ | ⟨_ | ⟨x, xs⟩⟩ <;> rfl

theorem normEmptyDiag_hasDiag (a : CodeAction) : hasDiag (normEmptyDiag a) = hasDiag a := by
  rcases a with ⟨t, k, d⟩
  rcases d with _ | ⟨_ | ⟨x, xs⟩⟩ <;> rfl

theorem normEmptyDiag_firstMsg (a : CodeAction) : firstMsg (normEmptyDiag a) = firstMsg a := by
  rcases a with ⟨t, k, d⟩
  rcases d with _ | ⟨_ | ⟨x, xs⟩⟩ <;> rfl

theorem normEmptyDiag_passes (f : CodeActionFilter) (a : CodeAction) :
    actionPasses f (normEmptyDiag a) = actionPasses f a := by
  unfold actionPasses
  rw [normEmptyDiag_kind]

theorem insertByMsg_map (a : CodeAction) :
    ∀ l : List CodeAction,
      insertByMsg (normEmptyDiag a) (l.map normEmptyDiag)
        = (insertByMsg a l).map normEmptyDiag := by
  intro l
  induction l with
  | nil => rfl
  | cons b bs ih =>
    simp only [List.map_cons, insertByMsg, normEmptyDiag_firstMsg]
    split <;> simp [ih]

theorem sortByMsg_map :
    ∀ l : List CodeAction,
      sortByMsg (l.map normEmptyDiag) = (sortByMsg l).map normEmptyDiag := by
  intro l
  induction l with
  | nil => rfl
  | cons a as ih =>
    simp only [List.map_cons, sortByMsg, ih, insertByMsg_map]

theorem segContained_refl : ∀ l : List String, segContained l l = true
  | [] => rfl
  | a :: as => by simp [segContained, segContained_refl as]

theorem kindContains_self (k : String) : kindContains k k = true :=
  segContained_refl (splitDot k)

/-- Pushing the empty-diagnostics normalisation through collection. -/
theorem collectActions_map (provided : List (List CodeAction)) (f : CodeActionFilter) :
    collectActions (provided.map (List.map normEmptyDiag)) f
      = (collectActions provided f).map normEmptyDiag := by
  unfold collectActions
  rw [← List.map_flatten, List.filter_map]
  apply congrArg
  apply List.filter_congr
  intro x hx
  exact normEmptyDiag_passes f x

/-- Membership in the selector's output is membership in the concatenation
together with passing the filter. -/
theorem mem_getCodeActions {a : CodeAction} {provided : List (List CodeAction)}
    {f : CodeActionFilter} :
    a ∈ getCodeActions provided f ↔ a ∈ provided.flatten ∧ actionPasses f a = true := by
  unfold getCodeActions collectActions
  simp only [List.mem_append, mem_sortByMsg, List.mem_filter]
  by_cases h : hasDiag a = true <;> simp [h]

/-! ### The concrete actions of the unit tests -/

/-- `testData.command.abc`: no kind, no diagnostics field. -/
def cmdA : CodeAction :=
  { title := "Extract to inner function in function \x22test\x22" }

/-- `testData.diagnostics.bcd`: one diagnostic with message `"bcd"`. -/
def diagB : CodeAction :=
  { title := "aTitle", diagnosticMessages := some ["bcd"] }

/-- `testData.spelling.bcd`: a present but empty diagnostics array. -/
def spellB : CodeAction :=
  { title := "abc", diagnosticMessages := some [] }

/-- `testData.tsLint.bcd`: no diagnostics field. -/
def tsC : CodeAction :=
  { title := "bcd" }

/-- `testData.tsLint.abc`: no diagnostics field. -/
def tsD : CodeAction :=
  { title := "abc" }

/-- `testData.diagnostics.abc`: one diagnostic with message `"abc"`. -/
def diagA : CodeAction :=
  { title := "bTitle", diagnosticMessages := some ["abc"] }

/-- Scope-test action of kind `"a"`. -/
def kindActA : CodeAction := { title := "a", kind := some "a" }

/-- Scope-test action of kind `"b"`. -/
def kindActB : CodeAction := { title := "b", kind := some "b" }

/-- Scope-test action of kind `"a.b"`. -/
def kindActAB : CodeAction := { title := "a.b", kind := some "a.b" }

/-- Scope-test action of kind `"ab"`, a single segment that merely starts
with the letter of another kind. -/
def kindActABWord : CodeAction := { title := "ab", kind := some "ab" }

/-- Scope-test action of kind `"a.c"`. -/
def kindActAC : CodeAction := { title := "a.c", kind := some "a.c" }

/-- The reserved-kind action of the source-action test. -/
def sourceAct : CodeAction := { title := "a", kind := some "source" }

/-! ### The claims -/

/-- C1: for every input, every retained action with a non-empty diagnostics
list precedes every retained action without diagnostics; within the
diagnostics group the actions are ordered by the lexicographic order of the
first diagnostic message, and restricted to any one message the original
concatenation order is kept (stable tie-break). -/
theorem getCodeActions_diag_first_sorted_stable
    (provided : List (List CodeAction)) (f : CodeActionFilter) :
    (getCodeActions provided f).Pairwise
        (fun a b => hasDiag b = true →
          hasDiag a = true ∧ strLt (firstMsg b) (firstMsg a) = false)
      ∧ ∀ m : String,
        (getCodeActions provided f).filter (fun a => hasDiag a && (firstMsg a == m))
          = (collectActions provided f).filter
              (fun a => hasDiag a && (firstMsg a == m)) := by
  constructor
  · unfold getCodeActions
    rw [List.pairwise_append]
    refine ⟨?_, ?_, ?_⟩
    · refine (pairwise_sortByMsg _).imp_of_mem ?_
      intro a b ha hb hle hdb
      exact ⟨(List.mem_filter.mp ((mem_sortByMsg _).mp ha)).2, hle⟩
    · apply List.pairwise_of_forall_mem_list
      intro a ha b hb hdb
      have hb2 : (!hasDiag b) = true := (List.mem_filter.mp hb).2
      simp [hdb] at hb2
    · intro a ha b hb hdb
      have hb2 : (!hasDiag b) = true := (List.mem_filter.mp hb).2
      simp [hdb] at hb2
  · intro m
    unfold getCodeActions
    rw [List.filter_append]
    have hng : ((collectActions provided f).filter (fun a => !hasDiag a)).filter
        (fun a => hasDiag a && (firstMsg a == m)) = [] := by
      rw [List.filter_eq_nil_iff]
      intro x hx
      have hx2 : (!hasDiag x) = true := (List.mem_filter.mp hx).2
      simp at hx2
      simp [hx2]
    have hdg : (sortByMsg ((collectActions provided f).filter hasDiag)).filter
        (fun a => hasDiag a && (firstMsg a == m))
        = ((collectActions provided f).filter hasDiag).filter
            (fun a => hasDiag a && (firstMsg a == m)) := by
      have h₁ : ∀ x ∈ sortByMsg ((collectActions provided f).filter hasDiag),
          (hasDiag x && (firstMsg x == m)) = (firstMsg x == m) := by
        intro x hx
        have hx2 : hasDiag x = true :=
          (List.mem_filter.mp ((mem_sortByMsg _).mp hx)).2
        rw [hx2, Bool.true_and]
      have h₂ : ∀ x ∈ (collectActions provided f).filter hasDiag,
          (hasDiag x && (firstMsg x == m)) = (firstMsg x == m) := by
        intro x hx
        have hx2 : hasDiag x = true := (List.mem_filter.mp hx).2
        rw [hx2, Bool.true_and]
      rw [List.filter_congr h₁, filter_sortByMsg, ← List.filter_congr h₂]
    rw [hng, hdg, List.append_nil, List.filter_filter]
    apply List.filter_congr
    intro x hx
    cases h : hasDiag x <;> simp [h]

/-- C2: kind filtering retains exactly the actions whose kind is the filter's
kind or hierarchically contained in it by dot-delimited segments; on the
scope-test input, kind `"a"` keeps `"a"`, `"a.b"` and `"a.c"` but not `"ab"`
or `"b"`, and kind `"a.b"` keeps only `"a.b"`. -/
theorem getCodeActions_filters_by_kind :
    (∀ (provided : List (List CodeAction)) (kp : String) (incl : Bool)
        (a : CodeAction),
        a ∈ getCodeActions provided { kind := some kp, includeSourceActions := incl }
          ↔ a ∈ provided.flatten ∧ ∃ k, a.kind = some k ∧ kindContains kp k = true
              ∧ (kindContains "source" k = false ∨ incl = true))
    ∧ getCodeActions [[kindActA, kindActB, kindActABWord, kindActAB, kindActAC]]
        { kind := some "a" } = [kindActA, kindActAB, kindActAC]
    ∧ getCodeActions [[kindActA, kindActB, kindActABWord, kindActAB, kindActAC]]
        { kind := some "a.b" } = [kindActAB] := by
  refine ⟨?_, by decide, by decide⟩
  intro provided kp incl a
  rw [mem_getCodeActions]
  apply and_congr_right
  intro _
  cases ha : a.kind with
  | none => simp [actionPasses, ha]
  | some k =>
    simp only [actionPasses, ha, Option.some.injEq]
    cases hc : kindContains kp k <;> cases hs : kindContains "source" k
      <;> cases incl <;> simp [hc, hs]

/-- C3: with the default filter every action whose kind equals or is contained
in the reserved `"source"` kind is excluded; with `includeSourceActions` set
and kind `"source"` requested, exactly the source-contained actions among the
collected ones are returned. -/
theorem getCodeActions_source_excluded_by_default :
    (∀ (provided : List (List CodeAction)) (a : CodeAction) (k : String),
        a ∈ getCodeActions provided {} → a.kind = some k →
          kindContains "source" k = false)
    ∧ (∀ (provided : List (List CodeAction)) (a : CodeAction),
        a ∈ getCodeActions provided { kind := some "source", includeSourceActions := true }
          ↔ a ∈ provided.flatten ∧ ∃ k, a.kind = some k ∧ kindContains "source" k = true)
    ∧ getCodeActions [[sourceAct, kindActB]] {} = [kindActB]
    ∧ getCodeActions [[sourceAct, kindActB]]
        { kind := some "source", includeSourceActions := true } = [sourceAct] := by
  refine ⟨?_, ?_, by decide, by decide⟩
  · intro provided a k hmem hk
    have hp := (mem_getCodeActions.mp hmem).2
    simp only [actionPasses, hk] at hp
    cases hs : kindContains "source" k
    · rfl
    · simp [hs] at hp
  · intro provided a
    rw [mem_getCodeActions]
    apply and_congr_right
    intro _
    cases ha : a.kind with
    | none => simp [actionPasses, ha]
    | some k =>
      simp only [actionPasses, ha, Option.some.injEq]
      cases hs : kindContains "source" k <;> simp [kindContains_self, hs]

/-- Witness for C3: the retained action of kind `"b"` is indeed not
source-contained. -/
theorem getCodeActions_source_excluded_by_default_witness :
    kindContains "source" "b" = false :=
  getCodeActions_source_excluded_by_default.1 [[kindActB]] kindActB "b" (by decide) rfl

/-- C4: the retained actions without diagnostics appear in the output in
exactly their original concatenation order, with no further sorting. -/
theorem getCodeActions_preserves_nondiag_order
    (provided : List (List CodeAction)) (f : CodeActionFilter) :
    (getCodeActions provided f).filter (fun a => !hasDiag a)
      = (collectActions provided f).filter (fun a => !hasDiag a) := by
  unfold getCodeActions
  rw [List.filter_append]
  have h₁ : (sortByMsg ((collectActions provided f).filter hasDiag)).filter
      (fun a => !hasDiag a) = [] := by
    rw [List.filter_eq_nil_iff]
    intro x hx
    have hx2 : hasDiag x = true :=
      (List.mem_filter.mp ((mem_sortByMsg _).mp hx)).2
    simp [hx2]
  rw [h₁, List.nil_append, List.filter_filter]
  apply List.filter_congr
  intro x hx
  cases h : hasDiag x <;> simp [h]

/-- C5: an action with a present-but-empty diagnostics sequence is classified
exactly like one that omits the field: both fall in the non-diagnostic group,
and replacing the one by the other everywhere commutes with selection. -/
theorem getCodeActions_empty_diag_like_absent
    (provided : List (List CodeAction)) (f : CodeActionFilter) :
    getCodeActions (provided.map (List.map normEmptyDiag)) f
      = (getCodeActions provided f).map normEmptyDiag
    ∧ ∀ (t : String) (k : Option String),
        hasDiag { title := t, kind := k, diagnosticMessages := some [] } = false
        ∧ hasDiag { title := t, kind := k, diagnosticMessages := none } = false
        ∧ normEmptyDiag { title := t, kind := k, diagnosticMessages := some [] }
            = { title := t, kind := k, diagnosticMessages := none } := by
  constructor
  · unfold getCodeActions
    rw [collectActions_map]
    have e₁ : ((collectActions provided f).map normEmptyDiag).filter hasDiag
        = ((collectActions provided f).filter hasDiag).map normEmptyDiag := by
      rw [List.filter_map,
        show hasDiag ∘ normEmptyDiag = hasDiag from funext normEmptyDiag_hasDiag]
    have e₂ : ((collectActions provided f).map normEmptyDiag).filter (fun a => !hasDiag a)
        = ((collectActions provided f).filter (fun a => !hasDiag a)).map normEmptyDiag := by
      rw [List.filter_map,
        show (fun a => !hasDiag a) ∘ normEmptyDiag = (fun a => !hasDiag a) from
          funext fun x => by rw [Function.comp_apply, normEmptyDiag_hasDiag]]
    rw [e₁, e₂, sortByMsg_map, List.map_append]
  · intro t k
    exact ⟨rfl, rfl, rfl⟩

/-- C6: on the issue-38623 input, where the provider yields `cmdA`, `diagB`,
`spellB`, `tsC`, `tsD`, `diagA` in that order, the selector returns exactly
`[diagA, diagB, cmdA, spellB, tsC, tsD]`. -/
theorem getCodeActions_sorted_by_type_example :
    getCodeActions [[cmdA, diagB, spellB, tsC, tsD, diagA]] {}
      = [diagA, diagB, cmdA, spellB, tsC, tsD] := by
  decide

/-- C7: selection is total — its result is empty exactly when no collected
action passes the filter, and on the scope test's unmatched kind `"a.b.c"`
the result is the empty sequence. -/
theorem getCodeActions_total_no_error
    (provided : List (List CodeAction)) (f : CodeActionFilter) :
    (getCodeActions provided f = []
        ↔ ∀ a ∈ provided.flatten, actionPasses f a = false)
    ∧ getCodeActions [[kindActA, kindActB, kindActAB]] { kind := some "a.b.c" } = [] := by
  refine ⟨?_, by decide⟩
  unfold getCodeActions
  rw [List.append_eq_nil]
  constructor
  · rintro ⟨h₁, h₂⟩
    have hdg : (collectActions provided f).filter hasDiag = [] :=
      sortByMsg_eq_nil.mp h₁
    intro a ha
    by_cases hp : actionPasses f a = true
    · exfalso
      have hmem : a ∈ collectActions provided f := by
        unfold collectActions
        exact List.mem_filter.mpr ⟨ha, hp⟩
      by_cases hd : hasDiag a = true
      · have hin : a ∈ (collectActions provided f).filter hasDiag :=
          List.mem_filter.mpr ⟨hmem, hd⟩
        rw [hdg] at hin
        cases hin
      · have hin : a ∈ (collectActions provided f).filter (fun a => !hasDiag a) :=
          List.mem_filter.mpr ⟨hmem, by simp [Bool.eq_false_iff.mpr hd]⟩
        rw [h₂] at hin
        cases hin
    · exact Bool.eq_false_iff.mpr hp
  · intro h
    have hF : collectActions provided f = [] := by
      unfold collectActions
      rw [List.filter_eq_nil_iff]
      intro a ha
      simp [h a ha]
    rw [hF]
    exact ⟨rfl, rfl⟩

/-- C8: selection is a deterministic pure function of the collected action
list and the filter — equal inputs give equal output sequences. -/
theorem getCodeActions_deterministic
    (p₁ p₂ : List (List CodeAction)) (f₁ f₂ : CodeActionFilter)
    (hp : p₁ = p₂) (hf : f₁ = f₂) :
    getCodeActions p₁ f₁ = getCodeActions p₂ f₂ := by
  rw [hp, hf]

/-- Witness for C8 at a concrete input. -/
theorem getCodeActions_deterministic_witness :
    getCodeActions [[kindActA]] {} = getCodeActions [[kindActA]] {} :=
  getCodeActions_deterministic [[kindActA]] [[kindActA]] {} {} rfl rfl

/-- C9: the requested kind is forwarded to each provider as the context's
`only` field — providers that report their context each observe the filter's
kind. -/
theorem getCodeActionsFromProviders_forwards_kind
    (k t₁ t₂ : String) (hk : kindContains "source" k = false) :
    getCodeActionsFromProviders [observerProvider t₁, observerProvider t₂]
        { kind := some k }
      = [{ title := t₁, kind := some k, diagnosticMessages := none },
         { title := t₂, kind := some k, diagnosticMessages := none }] := by
  unfold getCodeActionsFromProviders observerProvider getCodeActions collectActions
  simp [actionPasses, kindContains_self, hk, hasDiag, sortByMsg]

/-- Witness for C9 at the concrete kind `"a"`. -/
theorem getCodeActionsFromProviders_forwards_kind_witness :
    getCodeActionsFromProviders [observerProvider "p1", observerProvider "p2"]
        { kind := some "a" }
      = [{ title := "p1", kind := some "a", diagnosticMessages := none },
         { title := "p2", kind := some "a", diagnosticMessages := none }] :=
  getCodeActionsFromProviders_forwards_kind "a" "p1" "p2" (by decide)

/-- C10: once `total` has been called, `worked` and `setWorked` coerce their
argument up to at least 1 (so `worked 0` advances by exactly 1), keep
`workedVal ≤ totalWork`, and set the bit width to
`100 * workedVal / totalWork` percent. -/
theorem progressBar_worked_clamps_and_scales
    (p : ProgressBar) (t v : ℚ) (h : p.totalWork = some t) :
    p.worked 0 = p.doSetWorked (p.workedVal + 1)
    ∧ (∃ q, p.worked v = some q
        ∧ q.workedVal = min t (p.workedVal + max 1 v)
        ∧ q.workedVal ≤ t
        ∧ q.totalWork = some t
        ∧ q.bitWidthPct = some (100 * (q.workedVal / t)))
    ∧ (∃ q, p.setWorked v = some q
        ∧ q.workedVal = min t (max 1 v)
        ∧ q.workedVal ≤ t
        ∧ q.totalWork = some t
        ∧ q.bitWidthPct = some (100 * (q.workedVal / t))) := by
  refine ⟨?_, ?_, ?_⟩
  · unfold ProgressBar.worked
    rw [show max (1 : ℚ) 0 = 1 from by norm_num]
  · unfold ProgressBar.worked ProgressBar.doSetWorked
    rw [h]
    exact ⟨_, rfl, rfl, min_le_left t _, rfl, rfl⟩
  · unfold ProgressBar.setWorked ProgressBar.doSetWorked
    rw [h]
    exact ⟨_, rfl, rfl, min_le_left t _, rfl, rfl⟩

/-- Witness for C10 on a bar with total work 10. -/
theorem progressBar_worked_clamps_and_scales_witness :
    (ProgressBar.initial.total 10).worked 0
      = (ProgressBar.initial.total 10).doSetWorked
          ((ProgressBar.initial.total 10).workedVal + 1) :=
  (progressBar_worked_clamps_and_scales (ProgressBar.initial.total 10) 10 0 rfl).1

end VSCode
